import Mathlib

/-!
# Evergreen agent logging and commit-queue message validation

A shallow embedding of `agent/logging.go` and
`model/commitqueue/github_pr_message.go`.

Conventions of the embedding:

* a Go `error` is modelled by its message: `Option String`, `none` being `nil`;
* Go `string`s are Lean `String`s, Go `int` is `Int` (wrapped to 64 bits where
  the code can overflow);
* external collaborators (storage bucket, expansion engine, logging backend,
  sender constructors, the file system) are parameters of the operations.
-/

namespace Evergreen

/-! ## grip's basic error catcher (external library) -/

/-- Go's `strings.Join`. -/
def stringsJoin : List String → String → String
  | [], _ => ""
  | [a], _ => a
  | a :: b :: rest, sep => a ++ sep ++ stringsJoin (b :: rest) sep

/-- The state of a `grip.Catcher` created by `grip.NewBasicCatcher()`: the errors added so far. -/
structure Catcher where
  errs : List String
  deriving DecidableEq, Repr

/-- The call `grip.NewBasicCatcher()`. -/
def NewBasicCatcher : Catcher := ⟨[]⟩

/-- The method `Catcher.Add`: a nil error is ignored, any other error is recorded. -/
def Catcher.Add (c : Catcher) : Option String → Catcher
  | none => c
  | some e => ⟨c.errs ++ [e]⟩

/-- The method `Catcher.Resolve`: nil when nothing was recorded, otherwise one error whose
message is the recorded messages joined by newlines. -/
def Catcher.Resolve (c : Catcher) : Option String :=
  if c.errs.isEmpty then none else some (stringsJoin c.errs "\n")

/-- The helper `errors.Wrap(err, msg)` of `github.com/pkg/errors` on a non-nil error. -/
def errorsWrap (err : String) (msg : String) : String := msg ++ ": " ++ err

/-! ## Go standard library: `strconv.Itoa` and `path/filepath` (Unix) -/

/-- Go's `strconv.Itoa`: the decimal representation, with a leading minus sign for negatives. -/
def Itoa : Int → String
  | Int.ofNat n => String.mk (Nat.toDigits 10 n)
  | Int.negSucc n => String.mk ('-' :: Nat.toDigits 10 (n + 1))

/-- Split a path at every separator `/`; the result always has at least one element. -/
def splitSep : List Char → List (List Char)
  | [] => [[]]
  | c :: cs =>
    if c = '/' then [] :: splitSep cs
    else
      match splitSep cs with
      | [] => [[c]]
      | h :: t => (c :: h) :: t

/-- Join path elements with the separator `/`. -/
def joinSep : List (List Char) → List Char
  | [] => []
  | [e] => e
  | e :: f :: rest => e ++ '/' :: joinSep (f :: rest)

/-- One element of the loop of `filepath.Clean`. The output elements are kept innermost first.
Empty and `.` elements are dropped; `..` removes the preceding real element, is dropped at the
root, and is kept at the start of a relative path; any other element is appended. -/
def cleanStep (rooted : Bool) (out : List (List Char)) (e : List Char) : List (List Char) :=
  if e = [] ∨ e = ['.'] then out
  else if e = ['.', '.'] then
    match out with
    | [] => if rooted then [] else [e]
    | top :: rest => if top = ['.', '.'] then e :: out else rest
  else e :: out

/-- Go's `filepath.Clean` on the characters of a Unix path. -/
def cleanChars (path : List Char) : List Char :=
  let rooted := path.head? == some '/'
  let out := (splitSep path).foldl (cleanStep rooted) []
  let body := joinSep out.reverse
  if rooted then '/' :: body
  else if body = [] then ['.'] else body

/-- Go's `filepath.Clean` (Unix). -/
def filepathClean (path : String) : String := String.mk (cleanChars path.data)

/-- Go's `filepath.Join` (Unix): leading empty elements are skipped, the rest is joined with `/`
and cleaned; with no non-empty element the result is the empty string. -/
def filepathJoin : List String → String
  | [] => ""
  | e :: rest =>
    if e = "" then filepathJoin rest
    else filepathClean (stringsJoin (e :: rest) "/")

/-- A path element that `filepath.Clean` keeps as it is: not empty, not `.`, not `..`, and
without a separator. -/
def NormalElem (e : List Char) : Prop :=
  e ≠ [] ∧ e ≠ ['.'] ∧ e ≠ ['.', '.'] ∧ '/' ∉ e

instance : DecidablePred NormalElem := fun e => by
  unfold NormalElem
  infer_instance

/-- A task id or directory name all of whose `/`-separated elements are normal: a relative path
that `filepath.Clean` leaves as it is and that has no `..` element. -/
def NormalPath (s : String) : Prop := ∀ e ∈ splitSep s.data, NormalElem e

instance : DecidablePred NormalPath := fun s => by
  unfold NormalPath
  infer_instance

/-! ## model/commitqueue/github_pr_message.go -/

namespace commitqueue

def githubMergeMethodMerge : String := "merge"
def githubMergeMethodSquash : String := "squash"
def githubMergeMethodRebase : String := "rebase"

structure GithubMergePR where
  Owner : String
  Repo : String
  Ref : String
  PRNum : Int
  CommitMessage : String
  CommitTitle : String
  MergeMethod : String
  deriving DecidableEq, Repr

/-- Go's `len` of a string is a byte count; it is zero exactly for the empty string, which is
all `Valid` uses it for. -/
def len (s : String) : Nat := s.utf8ByteSize

/-- The method `GithubMergePR.Valid`. -/
def GithubMergePR.Valid (p : GithubMergePR) : Option String :=
  let catcher := NewBasicCatcher
  let catcher := if len p.Owner = 0 then catcher.Add (some "Owner can't be empty") else catcher
  let catcher := if len p.Repo = 0 then catcher.Add (some "Repo can't be empty") else catcher
  let catcher :=
    if len p.CommitMessage = 0 then catcher.Add (some "Commit message can't be empty") else catcher
  let catcher := if len p.Ref = 0 then catcher.Add (some "Ref can't be empty") else catcher
  let catcher :=
    if p.PRNum ≤ 0 then catcher.Add (some "Invalid pull request number") else catcher
  let catcher :=
    if len p.MergeMethod > 0 then
      if p.MergeMethod = githubMergeMethodMerge ∨ p.MergeMethod = githubMergeMethodSquash
          ∨ p.MergeMethod = githubMergeMethodRebase then catcher
      else catcher.Add (some "Invalid merge method")
    else catcher
  catcher.Resolve

/-- The type `githubMergePRMessage` (the embedded `message.Base` holds only log metadata). -/
structure githubMergePRMessage where
  raw : GithubMergePR
  deriving DecidableEq, Repr

/-- The method `githubMergePRMessage.Loggable`. -/
def githubMergePRMessage.Loggable (c : githubMergePRMessage) : Bool :=
  c.raw.Valid == none

end commitqueue

/-! ## agent/logging.go -/

namespace agent

def taskLogDirectory : String := "evergreen-logs"
def agentLogFileName : String := "agent.log"
def systemLogFileName : String := "system.log"
def taskLogFileName : String := "task.log"

/-! ### The id source -/

/-- Go's `int` is 64 bits wide on the platforms the agent runs on; arithmetic wraps silently. -/
def wrapInt (x : Int) : Int := (x + 2 ^ 63) % 2 ^ 64 - 2 ^ 63

/-- The state shared by `init` and `getInc`: the local variable `id` of the producer goroutine
and the content of the buffered channel `idSource`, oldest value first. -/
structure IdSource where
  id : Int
  buf : List Int
  deriving DecidableEq, Repr

/-- The capacity given to `make(chan int, 100)`. -/
def idSourceCap : Nat := 100

/-- The state set up by `init`: `id := 0` and an empty channel. -/
def IdSource.init : IdSource := ⟨0, []⟩

/-- One iteration of the producer loop, `idSource <- id; id++`. The send blocks while the
channel is full, in which case the state is unchanged. The increment touches only the producer's
own variable, so send and increment are taken as one step. -/
def IdSource.produce (s : IdSource) : IdSource :=
  if s.buf.length < idSourceCap then ⟨wrapInt (s.id + 1), s.buf ++ [s.id]⟩ else s

/-- The function `getInc`, a receive from `idSource`: it takes the oldest buffered value. On an
empty channel the receive waits for the next send of the producer, which is then handed over. -/
def getInc (s : IdSource) : Int × IdSource :=
  match s.buf with
  | v :: rest => (v, ⟨s.id, rest⟩)
  | [] => (s.id, ⟨wrapInt (s.id + 1), []⟩)

/-- What the scheduler can run next: an iteration of the producer goroutine or a call of
`getInc`. -/
inductive Event where
  | produce
  | call
  deriving DecidableEq, Repr

/-- Run a schedule from a state; the values returned by the calls of `getInc` are collected in
call order. -/
def runSchedule : IdSource → List Event → List Int × IdSource
  | s, [] => ([], s)
  | s, Event.produce :: rest => runSchedule s.produce rest
  | s, Event.call :: rest =>
    let r := getInc s
    let t := runSchedule r.2 rest
    (r.1 :: t.1, t.2)

/-- The number of calls of `getInc` in a schedule. -/
def callCount (sched : List Event) : Nat := sched.count Event.call

/-- The state of the id source after `c` values were received: the channel holds the next
values in order, at most as many as its capacity, and the producer holds the value after them. -/
def IdSourceAt (c : Nat) (s : IdSource) : Prop :=
  s.buf = (List.range' c s.buf.length).map (fun (k : Nat) => wrapInt (k : Int)) ∧
    s.id = wrapInt ((c + s.buf.length : Nat) : Int) ∧ s.buf.length ≤ idSourceCap

instance (c : Nat) (s : IdSource) : Decidable (IdSourceAt c s) := by
  unfold IdSourceAt
  infer_instance

/-! ### GetSender -/

/-- A sender as built by the `send` package: the Splunk sender, the native console sender, or a
file sender with its file name. -/
inductive Sender where
  | splunk
  | native
  | file (name : String)
  deriving DecidableEq, Repr

/-- What `GetSender` reads from its process and from packages outside `agent/logging.go`:
the environment variable `subprocess.MarkerAgentPID`, whether `send.GetSplunkConnectionInfo()`
is populated, the outcome of each sender constructor (an error or nil), the process id, and the
two constants of package `evergreen`. -/
structure Env where
  markerAgentPID : String
  splunkPopulated : Bool
  newSplunkLogger : Option String
  newNativeLogger : Option String
  newFileLogger : String → Option String
  pid : Int
  LocalLoggingOverride : String
  StandardOutputLoggingOverride : String

/-- The function `GetSender`. The result is the error or the children of the multi-sender,
together with the id source after the call. -/
def GetSender (env : Env) (ids : IdSource) (pfx : String) :
    Except String (List Sender) × IdSource :=
  let senders : List Sender := []
  let splunkStep : Except String (List Sender) :=
    if env.markerAgentPID = "" then
      if env.splunkPopulated then
        match env.newSplunkLogger with
        | some err => Except.error (errorsWrap err "problem creating the splunk logger")
        | none => Except.ok (senders ++ [Sender.splunk])
      else Except.ok senders
    else Except.ok senders
  match splunkStep with
  | Except.error e => (Except.error e, ids)
  | Except.ok senders =>
    if pfx = "" then
      (Except.ok senders, ids)
    else if pfx = env.LocalLoggingOverride ∨ pfx = "--"
        ∨ pfx = env.StandardOutputLoggingOverride then
      match env.newNativeLogger with
      | some err => (Except.error (errorsWrap err "problem creating a native console logger"), ids)
      | none => (Except.ok (senders ++ [Sender.native]), ids)
    else
      let r := getInc ids
      let name := pfx ++ "-" ++ Itoa env.pid ++ "-" ++ Itoa r.1 ++ ".log"
      match env.newFileLogger name with
      | some err => (Except.error (errorsWrap err "problem creating a file logger"), r.2)
      | none => (Except.ok (senders ++ [Sender.file name]), r.2)

/-- The senders of a set other than the remote alerting (Splunk) sender. -/
def localSenders (senders : List Sender) : List Sender :=
  senders.filter (fun s => s != Sender.splunk)

/-! ### Types of the packages `model`, `client`, `apimodels` and `task` used by the agent -/

/-- The type `model.LogOpts`: one templated channel entry. The field `Type_` is the Go field
`Type`, the sender kind. -/
structure model.LogOpts where
  Type_ : String
  SplunkServer : String
  SplunkToken : String
  deriving DecidableEq, Repr

/-- The type `model.LoggerConfig`. -/
structure model.LoggerConfig where
  Agent : List model.LogOpts
  System : List model.LogOpts
  Task : List model.LogOpts
  deriving DecidableEq, Repr

/-- The fields of `client.LogOpts` that `convertLoggerConfig` sets. -/
structure client.LogOpts where
  LogkeeperURL : String
  LogkeeperBuilder : String
  LogkeeperBuildNum : Int
  Sender : String
  SplunkServerURL : String
  SplunkToken : String
  Filepath : String
  deriving DecidableEq, Repr

/-- The type `client.LoggerConfig`. -/
structure client.LoggerConfig where
  Agent : List client.LogOpts
  System : List client.LogOpts
  Task : List client.LogOpts
  deriving DecidableEq, Repr

/-- The type `apimodels.LogInfo`. -/
structure apimodels.LogInfo where
  Command : String
  URL : String
  deriving DecidableEq, Repr

/-- The type `apimodels.TaskLogs`. -/
structure apimodels.TaskLogs where
  AgentLogURLs : List apimodels.LogInfo
  SystemLogURLs : List apimodels.LogInfo
  TaskLogURLs : List apimodels.LogInfo
  deriving DecidableEq, Repr

/-- One entry of the metadata returned by `GetLoggerMetadata`. -/
structure client.LogkeeperMetadata where
  Build : String
  Test : String
  deriving DecidableEq, Repr

/-- The type `client.LoggerMetadata`. -/
structure client.LoggerMetadata where
  Agent : List client.LogkeeperMetadata
  System : List client.LogkeeperMetadata
  Task : List client.LogkeeperMetadata
  deriving DecidableEq, Repr

/-- The type `client.TaskData`. -/
structure client.TaskData where
  ID : String
  Secret : String
  deriving DecidableEq, Repr

/-- The fields of `task.Task` read by the logging code. -/
structure Task where
  Id : String
  Execution : Int
  deriving DecidableEq, Repr

/-- The type `model.TaskConfig`; the pointer `Task` may be nil. -/
structure TaskConfig where
  Task : Option Task
  deriving DecidableEq, Repr

/-- The expansion engine `util.Expansions`, seen through its method `ExpandString`, which returns
a string and an error (`none` for nil). -/
structure Expansions where
  ExpandString : String → String × Option String

/-- The fields of `taskContext` used by the logging code. The pointers `taskConfig` and `logs`
may be nil; `taskModel` is set by the agent before a logger is made. -/
structure taskContext where
  task : client.TaskData
  taskModel : Task
  taskConfig : Option TaskConfig
  expansions : Expansions
  logs : Option apimodels.TaskLogs

/-- The fields of `Options` used by the logging code. -/
structure Options where
  WorkingDirectory : String
  LogkeeperURL : String
  deriving DecidableEq, Repr

/-- The agent, with its options. -/
structure Agent where
  opts : Options
  deriving DecidableEq, Repr

/-- The two methods of the communicator `a.comm` that `makeLoggerProducer` calls, over a
communicator state `κ`; `π` is the type of the logger producer. -/
structure Communicator (κ π : Type) where
  GetLoggerProducer : κ → client.TaskData → client.LoggerConfig → π × κ
  GetLoggerMetadata : κ → client.LoggerMetadata

/-! ### convertLoggerConfig -/

/-- The body of each of the three loops of `convertLoggerConfig`: both templates are expanded, an
expansion error is logged and nothing else, and the entry is appended. -/
def convertEntry (a : Agent) (tc : taskContext) (fileName : String) (entry : model.LogOpts) :
    client.LogOpts :=
  let splunkServer := (tc.expansions.ExpandString entry.SplunkServer).1
  let splunkToken := (tc.expansions.ExpandString entry.SplunkToken).1
  { LogkeeperURL := a.opts.LogkeeperURL
    LogkeeperBuilder := tc.taskModel.Id
    LogkeeperBuildNum := tc.taskModel.Execution
    Sender := entry.Type_
    SplunkServerURL := splunkServer
    SplunkToken := splunkToken
    Filepath := filepathJoin [a.opts.WorkingDirectory, taskLogDirectory, fileName] }

/-- The method `convertLoggerConfig`: one loop per channel, each appending to its own list. -/
def convertLoggerConfig (a : Agent) (tc : taskContext) (c : model.LoggerConfig) :
    client.LoggerConfig :=
  let config : client.LoggerConfig := ⟨[], [], []⟩
  let config := c.Agent.foldl
    (fun cfg agentConfig =>
      { cfg with Agent := cfg.Agent ++ [convertEntry a tc agentLogFileName agentConfig] }) config
  let config := c.System.foldl
    (fun cfg systemConfig =>
      { cfg with System := cfg.System ++ [convertEntry a tc systemLogFileName systemConfig] })
    config
  let config := c.Task.foldl
    (fun cfg taskConfig =>
      { cfg with Task := cfg.Task ++ [convertEntry a tc taskLogFileName taskConfig] }) config
  config

/-! ### makeLoggerProducer -/

/-- The URL built by `fmt.Sprintf("%s/build/%s/test/%s", ...)`. -/
def logURL (logkeeperURL : String) (m : client.LogkeeperMetadata) : String :=
  logkeeperURL ++ "/build/" ++ m.Build ++ "/test/" ++ m.Test

/-- The method `makeLoggerProducer`. The creation of the log directory only logs its error and is
left out. The result is the logger, the task context after the call and the communicator state
after the call. -/
def makeLoggerProducer {κ π : Type} (a : Agent) (comm : Communicator κ π) (k : κ)
    (tc : taskContext) (c : model.LoggerConfig) (commandName : String) :
    π × taskContext × κ :=
  let config := convertLoggerConfig a tc c
  let r := comm.GetLoggerProducer k tc.task config
  let logger := r.1
  let loggerData := comm.GetLoggerMetadata r.2
  let logs : apimodels.TaskLogs := ⟨[], [], []⟩
  let logs := loggerData.Agent.foldl
    (fun l agent =>
      { l with AgentLogURLs := l.AgentLogURLs ++ [⟨commandName, logURL a.opts.LogkeeperURL agent⟩] })
    logs
  let logs := loggerData.System.foldl
    (fun l system =>
      { l with SystemLogURLs :=
          l.SystemLogURLs ++ [⟨commandName, logURL a.opts.LogkeeperURL system⟩] })
    logs
  let logs := loggerData.Task.foldl
    (fun l task =>
      { l with TaskLogURLs := l.TaskLogURLs ++ [⟨commandName, logURL a.opts.LogkeeperURL task⟩] })
    logs
  (logger, { tc with logs := some logs }, r.2)

/-- The reference lists held by a task context; a nil `logs` holds none. -/
def taskContext.agentLogURLs (tc : taskContext) : List apimodels.LogInfo :=
  match tc.logs with
  | some l => l.AgentLogURLs
  | none => []

/-- See `taskContext.agentLogURLs`. -/
def taskContext.systemLogURLs (tc : taskContext) : List apimodels.LogInfo :=
  match tc.logs with
  | some l => l.SystemLogURLs
  | none => []

/-- See `taskContext.agentLogURLs`. -/
def taskContext.taskLogURLs (tc : taskContext) : List apimodels.LogInfo :=
  match tc.logs with
  | some l => l.TaskLogURLs
  | none => []

/-! ### uploadLogFiles -/

/-- The error of `os.Stat`, as far as `os.IsNotExist` tells errors apart. -/
inductive StatError where
  | notExist
  | other
  deriving DecidableEq, Repr

/-- Go's `os.IsNotExist`. -/
def osIsNotExist : Option StatError → Bool
  | some StatError.notExist => true
  | _ => false

/-- The local file system as `os.Stat` reports it (`none` for a nil error). -/
structure FileSystem where
  Stat : String → Option StatError

/-- A storage bucket (`pail.Bucket`) over a state `β`: `Upload` gets the key and the local path
and returns an error or nil, and the next state. -/
structure Bucket (β : Type) where
  Upload : β → String → String → Option String × β

/-- The method `uploadSingleFile`. -/
def uploadSingleFile {β : Type} (a : Agent) (fs : FileSystem) (bucket : Bucket β) (b : β)
    (file : String) (taskID : String) (execution : Int) : Option String × β :=
  let localPath := filepathJoin [a.opts.WorkingDirectory, taskLogDirectory, file]
  let err := fs.Stat localPath
  if osIsNotExist err then (none, b)
  else bucket.Upload b (filepathJoin ["logs", taskID, Itoa execution, file]) localPath

/-- The method `uploadLogFiles`. -/
def uploadLogFiles {β : Type} (a : Agent) (fs : FileSystem) (tc : taskContext)
    (bucket : Bucket β) (b : β) : Option String × β :=
  match tc.taskConfig with
  | none => (none, b)
  | some taskConfig =>
    match taskConfig.Task with
    | none => (none, b)
    | some task =>
      let catcher := NewBasicCatcher
      let r := uploadSingleFile a fs bucket b agentLogFileName task.Id task.Execution
      let catcher := catcher.Add r.1
      let r := uploadSingleFile a fs bucket r.2 systemLogFileName task.Id task.Execution
      let catcher := catcher.Add r.1
      let r := uploadSingleFile a fs bucket r.2 taskLogFileName task.Id task.Execution
      let catcher := catcher.Add r.1
      (catcher.Resolve, r.2)

/-- A bucket that behaves as `bucket` and also records every `Upload` call, as the pair of key
and local path, in call order. -/
def Bucket.recording {β : Type} (bucket : Bucket β) : Bucket (β × List (String × String)) where
  Upload := fun s key localPath =>
    let r := bucket.Upload s.1 key localPath
    (r.1, (r.2, s.2 ++ [(key, localPath)]))

/-- The local path of a log file, as `uploadSingleFile` computes it. -/
def localLogPath (a : Agent) (file : String) : String :=
  filepathJoin [a.opts.WorkingDirectory, taskLogDirectory, file]

/-- A local log file counts as missing when `os.Stat` reports that it does not exist. -/
def fileMissing (a : Agent) (fs : FileSystem) (file : String) : Bool :=
  osIsNotExist (fs.Stat (localLogPath a file))

/-- The storage key of a log file, as `uploadSingleFile` computes it. -/
def storageKey (taskID : String) (execution : Int) (file : String) : String :=
  filepathJoin ["logs", taskID, Itoa execution, file]

/-- The three fixed file names, in upload order. -/
def logFileNames : List String := [agentLogFileName, systemLogFileName, taskLogFileName]

/-! ### Sample inputs -/

/-- An expansion engine that fails on the unclosed template `$\x7bsecret` and leaves every other
string as it is. -/
def sampleExpansions : Expansions where
  ExpandString := fun t =>
    if t = "$\x7bsecret" then ("", some "unclosed expansion") else (t, none)

/-- An agent working in `/data/agent`. -/
def sampleAgent : Agent := ⟨⟨"/data/agent", "https://logkeeper.example.com"⟩⟩

/-- A task context for execution 0 of task `t1`, holding one agent log reference already. -/
def sampleTaskContext : taskContext where
  task := ⟨"t1", "s3cr3t"⟩
  taskModel := ⟨"t1", 0⟩
  taskConfig := some ⟨some ⟨"t1", 0⟩⟩
  expansions := sampleExpansions
  logs := some ⟨[⟨"shell.exec", "https://logkeeper.example.com/build/b0/test/t0"⟩], [], []⟩

/-- A file system on which every file exists. -/
def allPresent : FileSystem := ⟨fun _ => none⟩

/-- A file system on which `task.log` is the only log file that does not exist. -/
def taskLogMissing : FileSystem :=
  ⟨fun p => if p = "/data/agent/evergreen-logs/task.log" then some StatError.notExist else none⟩

/-- A bucket whose `Upload` fails, with one fixed error, on the given key and on no other. -/
def failOn (key : String) : Bucket Unit :=
  ⟨fun _ k _ => (if k = key then some "upload failed" else none, ())⟩

/-- A communicator whose logging backend reports one remote log for the agent channel. -/
def sampleComm : Communicator Unit Unit where
  GetLoggerProducer := fun _ _ _ => ((), ())
  GetLoggerMetadata := fun _ => ⟨[⟨"b1", "t1"⟩], [], []⟩

/-- A process with no Splunk credentials in which every sender constructor succeeds; the two
constants have the values they have in package `evergreen`. -/
def sampleEnv : Env where
  markerAgentPID := ""
  splunkPopulated := false
  newSplunkLogger := none
  newNativeLogger := none
  newFileLogger := fun _ => none
  pid := 4242
  LocalLoggingOverride := "LOCAL"
  StandardOutputLoggingOverride := "STDOUT"

end agent

end Evergreen

/-! ## Properties -/

namespace Evergreen

/-! ### The error catcher -/

theorem Catcher.Resolve_eq_none_iff (c : Catcher) : c.Resolve = none ↔ c.errs = [] := by
  unfold Catcher.Resolve
  cases h : c.errs <;> simp

theorem Catcher.Add_none (c : Catcher) : c.Add none = c := rfl

theorem Catcher.Add_some_errs (c : Catcher) (e : String) : (c.Add (some e)).errs = c.errs ++ [e] :=
  rfl

theorem Catcher.Add_errs_eq_nil_iff (c : Catcher) (r : Option String) :
    (c.Add r).errs = [] ↔ c.errs = [] ∧ r = none := by
  cases r <;> simp [Catcher.Add]

namespace commitqueue

theorem len_eq_zero_iff (s : String) : len s = 0 ↔ s = "" := by
  rcases s with ⟨l⟩
  cases l with
  | nil => simp [len, String.utf8ByteSize, String.utf8ByteSize.go]
  | cons c cs =>
    have hpos := Char.utf8Size_pos c
    simp only [len, String.utf8ByteSize, String.utf8ByteSize.go]
    constructor
    · intro h; omega
    · intro h; exact absurd (congrArg String.data h) (by simp)

/-- C10: `Valid` returns nil exactly for the well-formed messages (Owner, Repo, Ref and
CommitMessage non-empty, PRNum positive, MergeMethod empty or one of merge, squash, rebase),
and `Loggable` is true exactly for those. -/
theorem Valid_eq_none_iff (p : GithubMergePR) :
    (p.Valid = none ↔
      (p.Owner ≠ "" ∧ p.Repo ≠ "" ∧ p.Ref ≠ "" ∧ p.CommitMessage ≠ "" ∧ 0 < p.PRNum ∧
        (p.MergeMethod = "" ∨ p.MergeMethod = "merge" ∨ p.MergeMethod = "squash"
          ∨ p.MergeMethod = "rebase"))) ∧
    (githubMergePRMessage.Loggable ⟨p⟩ = true ↔ p.Valid = none) := by
  refine ⟨?_, by simp [githubMergePRMessage.Loggable]⟩
  have hm : (0 < len p.MergeMethod) ↔ p.MergeMethod ≠ "" := by
    rw [Nat.pos_iff_ne_zero, Ne, len_eq_zero_iff]
  simp only [GithubMergePR.Valid, Catcher.Resolve_eq_none_iff, len_eq_zero_iff, gt_iff_lt, hm,
    githubMergeMethodMerge, githubMergeMethodSquash, githubMergeMethodRebase]
  by_cases h1 : p.Owner = "" <;> by_cases h2 : p.Repo = "" <;>
    by_cases h3 : p.CommitMessage = "" <;> by_cases h4 : p.Ref = "" <;>
    by_cases h5 : p.PRNum ≤ 0 <;> by_cases h6 : p.MergeMethod = "" <;>
    by_cases h7 : (p.MergeMethod = "merge" ∨ p.MergeMethod = "squash" ∨ p.MergeMethod = "rebase") <;>
    simp [h1, h2, h3, h4, h5, h6, h7, Catcher.Add, NewBasicCatcher] <;> omega

end commitqueue

end Evergreen

namespace Evergreen

namespace agent

/-! ### uploadLogFiles -/

theorem uploadSingleFile_missing {β : Type} (a : Agent) (fs : FileSystem) (bucket : Bucket β)
    (b : β) (file taskID : String) (execution : Int) (h : fileMissing a fs file = true) :
    uploadSingleFile a fs bucket b file taskID execution = (none, b) := by
  simp only [fileMissing, localLogPath] at h
  simp [uploadSingleFile, h]

theorem uploadSingleFile_present {β : Type} (a : Agent) (fs : FileSystem) (bucket : Bucket β)
    (b : β) (file taskID : String) (execution : Int) (h : fileMissing a fs file = false) :
    uploadSingleFile a fs bucket b file taskID execution =
      bucket.Upload b (storageKey taskID execution file) (localLogPath a file) := by
  simp only [fileMissing, localLogPath] at h
  simp [uploadSingleFile, h, storageKey, localLogPath]

/-- C1: with a task identity, `uploadLogFiles` returns nil exactly when none of the three
per-file operations returned an error; the operation of a missing file returns nil without
touching the bucket, and that of any other file returns what `Upload` returns. -/
theorem uploadLogFiles_success_iff {β : Type} (a : Agent) (fs : FileSystem) (tc : taskContext)
    (bucket : Bucket β) (b : β) (taskConfig : TaskConfig) (task : Task)
    (hc : tc.taskConfig = some taskConfig) (ht : taskConfig.Task = some task) :
    ((uploadLogFiles a fs tc bucket b).1 = none ↔
      (uploadSingleFile a fs bucket b agentLogFileName task.Id task.Execution).1 = none ∧
      (uploadSingleFile a fs bucket
        (uploadSingleFile a fs bucket b agentLogFileName task.Id task.Execution).2
        systemLogFileName task.Id task.Execution).1 = none ∧
      (uploadSingleFile a fs bucket
        (uploadSingleFile a fs bucket
          (uploadSingleFile a fs bucket b agentLogFileName task.Id task.Execution).2
          systemLogFileName task.Id task.Execution).2
        taskLogFileName task.Id task.Execution).1 = none) ∧
    (∀ (file : String) (s : β),
      uploadSingleFile a fs bucket s file task.Id task.Execution =
        if fileMissing a fs file = true then (none, s)
        else bucket.Upload s (storageKey task.Id task.Execution file) (localLogPath a file)) := by
  constructor
  · simp only [uploadLogFiles, hc, ht, Catcher.Resolve_eq_none_iff, Catcher.Add_errs_eq_nil_iff,
      NewBasicCatcher]
    tauto
  · intro file s
    cases h : fileMissing a fs file
    · simp [uploadSingleFile_present a fs bucket s file _ _ h]
    · simp [uploadSingleFile_missing a fs bucket s file _ _ h]

/-- Two of the three files present and a bucket failing on neither: `uploadLogFiles` succeeds. -/
theorem uploadLogFiles_success_iff_witness :
    (uploadLogFiles sampleAgent taskLogMissing sampleTaskContext
      (failOn "logs/t1/0/task.log") ()).1 = none := by
  rw [(uploadLogFiles_success_iff sampleAgent taskLogMissing sampleTaskContext
    (failOn "logs/t1/0/task.log") () ⟨some ⟨"t1", 0⟩⟩ ⟨"t1", 0⟩ rfl rfl).1]
  decide

end agent

end Evergreen

namespace Evergreen

namespace agent

/-- C2: the `Upload` calls issued by `uploadLogFiles`, observed by a recording bucket started
with an empty record. Without a task identity there is no call and the result is nil; otherwise
the calls are, in the order agent.log, system.log, task.log, one call per file that is not missing,
with that file's key and local path, whatever the transfers return. The record does not change
the result. -/
theorem uploadLogFiles_calls {β : Type} (a : Agent) (fs : FileSystem) (tc : taskContext)
    (bucket : Bucket β) (b : β) :
    (match tc.taskConfig.bind (fun c => c.Task) with
      | none =>
        (uploadLogFiles a fs tc bucket.recording (b, [])).2.2 = [] ∧
        (uploadLogFiles a fs tc bucket.recording (b, [])).1 = none
      | some task =>
        (uploadLogFiles a fs tc bucket.recording (b, [])).2.2 =
          (logFileNames.filter (fun f => !fileMissing a fs f)).map
            (fun f => (storageKey task.Id task.Execution f, localLogPath a f))) ∧
    (uploadLogFiles a fs tc bucket.recording (b, [])).1 = (uploadLogFiles a fs tc bucket b).1 ∧
    (uploadLogFiles a fs tc bucket.recording (b, [])).2.1 = (uploadLogFiles a fs tc bucket b).2 := by
  cases hc : tc.taskConfig with
  | none => simp [uploadLogFiles, hc]
  | some c =>
    cases ht : c.Task with
    | none => simp [uploadLogFiles, hc, ht]
    | some t =>
      simp only [uploadLogFiles, hc, ht, Option.bind, logFileNames, uploadSingleFile,
        fileMissing, localLogPath, storageKey, Bucket.recording]
      cases h1 : osIsNotExist
          (fs.Stat (filepathJoin [a.opts.WorkingDirectory, taskLogDirectory, agentLogFileName])) <;>
        cases h2 : osIsNotExist
          (fs.Stat (filepathJoin [a.opts.WorkingDirectory, taskLogDirectory, systemLogFileName])) <;>
        cases h3 : osIsNotExist
          (fs.Stat (filepathJoin [a.opts.WorkingDirectory, taskLogDirectory, taskLogFileName])) <;>
        simp [List.filter, h1, h2, h3]

/-- C9, as stated, fails: with all three files present and the bucket reporting the same error,
the result when only agent.log fails equals the result when only system.log fails, and it is the
error of the bucket alone. -/
theorem uploadLogFiles_failures_indistinguishable :
    (uploadLogFiles sampleAgent allPresent sampleTaskContext
        (failOn "logs/t1/0/agent.log") ()).1 =
      (uploadLogFiles sampleAgent allPresent sampleTaskContext
        (failOn "logs/t1/0/system.log") ()).1 ∧
    (uploadLogFiles sampleAgent allPresent sampleTaskContext
        (failOn "logs/t1/0/agent.log") ()).1 = some "upload failed" := by
  decide

/-- C9, amended: with a task identity and all three files present, when exactly one of the three
transfers fails, `uploadLogFiles` returns exactly the error that `Upload` returned for that
transfer, with no file name added. -/
theorem uploadLogFiles_single_failure {β : Type} (a : Agent) (fs : FileSystem) (tc : taskContext)
    (bucket : Bucket β) (b : β) (taskConfig : TaskConfig) (task : Task) (e : String)
    (hc : tc.taskConfig = some taskConfig) (ht : taskConfig.Task = some task)
    (hpresent : ∀ f ∈ logFileNames, fileMissing a fs f = false)
    (hone : List.filterMap id
      [(bucket.Upload b (storageKey task.Id task.Execution agentLogFileName)
          (localLogPath a agentLogFileName)).1,
       (bucket.Upload
          (bucket.Upload b (storageKey task.Id task.Execution agentLogFileName)
            (localLogPath a agentLogFileName)).2
          (storageKey task.Id task.Execution systemLogFileName)
          (localLogPath a systemLogFileName)).1,
       (bucket.Upload
          (bucket.Upload
            (bucket.Upload b (storageKey task.Id task.Execution agentLogFileName)
              (localLogPath a agentLogFileName)).2
            (storageKey task.Id task.Execution systemLogFileName)
            (localLogPath a systemLogFileName)).2
          (storageKey task.Id task.Execution taskLogFileName)
          (localLogPath a taskLogFileName)).1] = [e]) :
    (uploadLogFiles a fs tc bucket b).1 = some e := by
  have h1 := hpresent agentLogFileName (by simp [logFileNames])
  have h2 := hpresent systemLogFileName (by simp [logFileNames])
  have h3 := hpresent taskLogFileName (by simp [logFileNames])
  simp only [uploadLogFiles, hc, ht, uploadSingleFile_present _ _ _ _ _ _ _ h1,
    uploadSingleFile_present _ _ _ _ _ _ _ h2, uploadSingleFile_present _ _ _ _ _ _ _ h3]
  revert hone
  generalize (bucket.Upload b (storageKey task.Id task.Execution agentLogFileName)
    (localLogPath a agentLogFileName)) = u1
  generalize (bucket.Upload u1.2 (storageKey task.Id task.Execution systemLogFileName)
    (localLogPath a systemLogFileName)) = u2
  generalize (bucket.Upload u2.2 (storageKey task.Id task.Execution taskLogFileName)
    (localLogPath a taskLogFileName)) = u3
  rcases u1 with ⟨_ | e1, s1⟩ <;> rcases u2 with ⟨_ | e2, s2⟩ <;> rcases u3 with ⟨_ | e3, s3⟩ <;>
    simp [Catcher.Add, Catcher.Resolve, NewBasicCatcher, stringsJoin]

/-- All three files present and only the transfer of system.log failing: the result is the
error of the bucket. -/
theorem uploadLogFiles_single_failure_witness :
    (uploadLogFiles sampleAgent allPresent sampleTaskContext
      (failOn "logs/t1/0/system.log") ()).1 = some "upload failed" :=
  uploadLogFiles_single_failure sampleAgent allPresent sampleTaskContext
    (failOn "logs/t1/0/system.log") () ⟨some ⟨"t1", 0⟩⟩ ⟨"t1", 0⟩ "upload failed" rfl rfl
    (by decide) (by decide)

end agent

end Evergreen

namespace Evergreen

namespace agent

/-! ### convertLoggerConfig and makeLoggerProducer -/

theorem foldl_config_agent (f : model.LogOpts → client.LogOpts) (l : List model.LogOpts)
    (cfg : client.LoggerConfig) :
    l.foldl (fun cfg x => { cfg with Agent := cfg.Agent ++ [f x] }) cfg =
      { cfg with Agent := cfg.Agent ++ l.map f } := by
  induction l generalizing cfg with
  | nil => simp
  | cons x xs ih => simp [List.foldl, ih]

theorem foldl_config_system (f : model.LogOpts → client.LogOpts) (l : List model.LogOpts)
    (cfg : client.LoggerConfig) :
    l.foldl (fun cfg x => { cfg with System := cfg.System ++ [f x] }) cfg =
      { cfg with System := cfg.System ++ l.map f } := by
  induction l generalizing cfg with
  | nil => simp
  | cons x xs ih => simp [List.foldl, ih]

theorem foldl_config_task (f : model.LogOpts → client.LogOpts) (l : List model.LogOpts)
    (cfg : client.LoggerConfig) :
    l.foldl (fun cfg x => { cfg with Task := cfg.Task ++ [f x] }) cfg =
      { cfg with Task := cfg.Task ++ l.map f } := by
  induction l generalizing cfg with
  | nil => simp
  | cons x xs ih => simp [List.foldl, ih]

theorem convertLoggerConfig_eq_map (a : Agent) (tc : taskContext) (c : model.LoggerConfig) :
    convertLoggerConfig a tc c =
      ⟨c.Agent.map (convertEntry a tc agentLogFileName),
       c.System.map (convertEntry a tc systemLogFileName),
       c.Task.map (convertEntry a tc taskLogFileName)⟩ := by
  simp [convertLoggerConfig, foldl_config_agent, foldl_config_system, foldl_config_task]

theorem foldl_logs_agent (f : client.LogkeeperMetadata → apimodels.LogInfo)
    (l : List client.LogkeeperMetadata) (logs : apimodels.TaskLogs) :
    l.foldl (fun logs x => { logs with AgentLogURLs := logs.AgentLogURLs ++ [f x] }) logs =
      { logs with AgentLogURLs := logs.AgentLogURLs ++ l.map f } := by
  induction l generalizing logs with
  | nil => simp
  | cons x xs ih => simp [List.foldl, ih]

theorem foldl_logs_system (f : client.LogkeeperMetadata → apimodels.LogInfo)
    (l : List client.LogkeeperMetadata) (logs : apimodels.TaskLogs) :
    l.foldl (fun logs x => { logs with SystemLogURLs := logs.SystemLogURLs ++ [f x] }) logs =
      { logs with SystemLogURLs := logs.SystemLogURLs ++ l.map f } := by
  induction l generalizing logs with
  | nil => simp
  | cons x xs ih => simp [List.foldl, ih]

theorem foldl_logs_task (f : client.LogkeeperMetadata → apimodels.LogInfo)
    (l : List client.LogkeeperMetadata) (logs : apimodels.TaskLogs) :
    l.foldl (fun logs x => { logs with TaskLogURLs := logs.TaskLogURLs ++ [f x] }) logs =
      { logs with TaskLogURLs := logs.TaskLogURLs ++ l.map f } := by
  induction l generalizing logs with
  | nil => simp
  | cons x xs ih => simp [List.foldl, ih]

/-- C6, as stated, fails: a task context that holds one agent log reference holds, after
`makeLoggerProducer` with one agent metadata entry, the new reference alone and not the old
reference followed by the new one. -/
theorem makeLoggerProducer_discards_old_references :
    sampleTaskContext.agentLogURLs =
      [⟨"shell.exec", "https://logkeeper.example.com/build/b0/test/t0"⟩] ∧
    (sampleComm.GetLoggerMetadata ()).Agent = [⟨"b1", "t1"⟩] ∧
    (makeLoggerProducer sampleAgent sampleComm () sampleTaskContext ⟨[], [], []⟩
        "git.get_project").2.1.agentLogURLs =
      [⟨"git.get_project", "https://logkeeper.example.com/build/b1/test/t1"⟩] ∧
    (makeLoggerProducer sampleAgent sampleComm () sampleTaskContext ⟨[], [], []⟩
        "git.get_project").2.1.agentLogURLs ≠
      sampleTaskContext.agentLogURLs ++
        [⟨"git.get_project", "https://logkeeper.example.com/build/b1/test/t1"⟩] := by
  decide

/-- C6, amended: after `makeLoggerProducer` each per-channel reference list of the task context
holds exactly one LogReference per metadata entry of that channel, in order, with the command
name and the URL `<LogkeeperURL>/build/<Build>/test/<Test>`; the metadata is what the
communicator reports after `GetLoggerProducer` was called with the converted config, and what the
lists held before the call is discarded. -/
theorem makeLoggerProducer_references {κ π : Type} (a : Agent) (comm : Communicator κ π) (k : κ)
    (tc : taskContext) (c : model.LoggerConfig) (commandName : String) :
    (makeLoggerProducer a comm k tc c commandName).2.1.agentLogURLs =
      (comm.GetLoggerMetadata
        (comm.GetLoggerProducer k tc.task (convertLoggerConfig a tc c)).2).Agent.map
        (fun m => ⟨commandName, a.opts.LogkeeperURL ++ "/build/" ++ m.Build ++ "/test/" ++ m.Test⟩) ∧
    (makeLoggerProducer a comm k tc c commandName).2.1.systemLogURLs =
      (comm.GetLoggerMetadata
        (comm.GetLoggerProducer k tc.task (convertLoggerConfig a tc c)).2).System.map
        (fun m => ⟨commandName, a.opts.LogkeeperURL ++ "/build/" ++ m.Build ++ "/test/" ++ m.Test⟩) ∧
    (makeLoggerProducer a comm k tc c commandName).2.1.taskLogURLs =
      (comm.GetLoggerMetadata
        (comm.GetLoggerProducer k tc.task (convertLoggerConfig a tc c)).2).Task.map
        (fun m => ⟨commandName, a.opts.LogkeeperURL ++ "/build/" ++ m.Build ++ "/test/" ++ m.Test⟩) := by
  simp [makeLoggerProducer, foldl_logs_agent, foldl_logs_system, foldl_logs_task,
    taskContext.agentLogURLs, taskContext.systemLogURLs, taskContext.taskLogURLs, logURL]

/-- C4, as stated, fails: when only the server template of an entry fails to expand, the entry is
emitted with its auth token expanded as usual, not empty. -/
theorem convertLoggerConfig_token_kept :
    (sampleExpansions.ExpandString "$\x7bsecret").2 ≠ none ∧
    (convertLoggerConfig sampleAgent sampleTaskContext
        ⟨[⟨"splunk", "$\x7bsecret", "token-123"⟩], [], []⟩).Agent.map
      (fun o => (o.SplunkServerURL, o.SplunkToken)) = [("", "token-123")] := by
  decide

/-- C4, amended: an expansion error changes nothing in the control flow of
`convertLoggerConfig`. Every template entry is emitted, in order, in its own channel; each of
its two secret fields holds the string that `ExpandString` returned for that field's own template,
with or without an error (so a field is empty after a failure exactly when the expansion engine
returned the empty string with the error, and the other field of the entry is expanded as usual);
and a resolved entry depends on the expansion engine only through the results for its own two
templates, so the failure of one entry leaves every other entry as it would have been. -/
theorem convertLoggerConfig_expansion_failure (a : Agent) (tc : taskContext)
    (c : model.LoggerConfig) :
    (convertLoggerConfig a tc c).Agent = c.Agent.map (convertEntry a tc agentLogFileName) ∧
    (convertLoggerConfig a tc c).System = c.System.map (convertEntry a tc systemLogFileName) ∧
    (convertLoggerConfig a tc c).Task = c.Task.map (convertEntry a tc taskLogFileName) ∧
    (∀ (fileName : String) (entry : model.LogOpts),
      (convertEntry a tc fileName entry).SplunkServerURL =
        (tc.expansions.ExpandString entry.SplunkServer).1 ∧
      (convertEntry a tc fileName entry).SplunkToken =
        (tc.expansions.ExpandString entry.SplunkToken).1) ∧
    (∀ (other : Expansions) (fileName : String) (entry : model.LogOpts),
      (other.ExpandString entry.SplunkServer).1 =
          (tc.expansions.ExpandString entry.SplunkServer).1 →
      (other.ExpandString entry.SplunkToken).1 =
          (tc.expansions.ExpandString entry.SplunkToken).1 →
      convertEntry a { tc with expansions := other } fileName entry =
        convertEntry a tc fileName entry) := by
  rw [convertLoggerConfig_eq_map]
  refine ⟨rfl, rfl, rfl, fun _ _ => ⟨rfl, rfl⟩, ?_⟩
  intro other fileName entry h1 h2
  simp [convertEntry, h1, h2]

/-- The entry whose server template fails is emitted with an empty server address, and the
entry after it resolves as it does under an expansion engine that never fails. -/
theorem convertLoggerConfig_expansion_failure_witness :
    (convertLoggerConfig sampleAgent sampleTaskContext
        ⟨[⟨"splunk", "$\x7bsecret", "token-123"⟩, ⟨"file", "srv", "tok"⟩], [], []⟩).Agent.map
      (fun o => o.SplunkServerURL) = ["", "srv"] ∧
    convertEntry sampleAgent { sampleTaskContext with expansions := ⟨fun t => (t, none)⟩ }
        agentLogFileName ⟨"file", "srv", "tok"⟩ =
      convertEntry sampleAgent sampleTaskContext agentLogFileName ⟨"file", "srv", "tok"⟩ :=
  ⟨by
    rw [(convertLoggerConfig_expansion_failure sampleAgent sampleTaskContext
      ⟨[⟨"splunk", "$\x7bsecret", "token-123"⟩, ⟨"file", "srv", "tok"⟩], [], []⟩).1]
    decide,
   (convertLoggerConfig_expansion_failure sampleAgent sampleTaskContext ⟨[], [], []⟩).2.2.2.2
    ⟨fun t => (t, none)⟩ agentLogFileName ⟨"file", "srv", "tok"⟩ (by decide) (by decide)⟩

end agent

end Evergreen

namespace Evergreen

/-! ### Paths -/

/-- The model of `filepath.Clean` on rows of the table in Go's own documentation and tests. -/
theorem filepathClean_examples :
    filepathClean "" = "." ∧ filepathClean "abc/" = "abc" ∧ filepathClean "/" = "/" ∧
    filepathClean "abc//def//ghi" = "abc/def/ghi" ∧ filepathClean "//abc//" = "/abc" ∧
    filepathClean "abc/./def" = "abc/def" ∧ filepathClean "abc/def/../.." = "." ∧
    filepathClean "abc/def/../../.." = ".." ∧ filepathClean "/abc/def/../../.." = "/" ∧
    filepathClean "abc/def/../../../ghi/jkl/../../../mno" = "../../mno" ∧
    filepathClean "/../abc" = "/abc" ∧ filepathClean "abc/../../././../def" = "../../def" ∧
    filepathJoin ["a", "", "b"] = "a/b" ∧ filepathJoin ["", ""] = "" ∧
    filepathJoin ["", "a/", "../b"] = "b" := by
  decide

theorem splitSep_ne_nil (p : List Char) : splitSep p ≠ [] := by
  cases p with
  | nil => simp [splitSep]
  | cons c cs =>
    unfold splitSep
    split
    · simp
    · split <;> simp

theorem splitSep_append_sep (a b : List Char) :
    splitSep (a ++ '/' :: b) = splitSep a ++ splitSep b := by
  induction a with
  | nil => simp [splitSep]
  | cons c cs ih =>
    by_cases hc : c = '/'
    · simp [splitSep, hc, ih]
    · have hne := splitSep_ne_nil cs
      have hstep : ∀ l : List Char, splitSep (c :: l) =
          match splitSep l with
          | [] => [[c]]
          | h :: t => (c :: h) :: t := by
        intro l; simp [splitSep, hc]
      rw [List.cons_append, hstep, hstep, ih]
      cases hs : splitSep cs with
      | nil => exact absurd hs hne
      | cons h t => simp

theorem splitSep_no_sep (e : List Char) (h : '/' ∉ e) : splitSep e = [e] := by
  induction e with
  | nil => rfl
  | cons c cs ih =>
    have hc : c ≠ '/' := fun hc => h (by simp [hc])
    have hcs : '/' ∉ cs := fun hcs => h (by simp [hcs])
    simp [splitSep, hc, ih hcs]

theorem joinSep_splitSep (p : List Char) : joinSep (splitSep p) = p := by
  induction p with
  | nil => rfl
  | cons c cs ih =>
    have hne := splitSep_ne_nil cs
    by_cases hc : c = '/'
    · simp only [splitSep, hc, if_true]
      cases hs : splitSep cs with
      | nil => exact absurd hs hne
      | cons h t => rw [hs] at ih; simp [joinSep, ih]
    · simp only [splitSep, hc, if_false]
      cases hs : splitSep cs with
      | nil => exact absurd hs hne
      | cons h t =>
        rw [hs] at ih
        cases t with
        | nil => simpa [joinSep] using ih
        | cons f rest => simp only [joinSep] at ih ⊢; simp [← ih]

theorem joinSep_append (l₁ l₂ : List (List Char)) (h₁ : l₁ ≠ []) (h₂ : l₂ ≠ []) :
    joinSep (l₁ ++ l₂) = joinSep l₁ ++ '/' :: joinSep l₂ := by
  induction l₁ with
  | nil => exact absurd rfl h₁
  | cons e rest ih =>
    cases rest with
    | nil =>
      cases l₂ with
      | nil => exact absurd rfl h₂
      | cons f more => simp [joinSep]
    | cons f more =>
      have := ih (by simp)
      simp only [List.cons_append] at this ⊢
      simp [joinSep, this]

theorem cleanStep_normal (rooted : Bool) (out : List (List Char)) (e : List Char)
    (h : NormalElem e) : cleanStep rooted out e = e :: out := by
  obtain ⟨h1, h2, h3, _⟩ := h
  simp [cleanStep, h1, h2, h3]

theorem foldl_cleanStep_normal (rooted : Bool) (l : List (List Char))
    (out : List (List Char)) (h : ∀ e ∈ l, NormalElem e) :
    l.foldl (cleanStep rooted) out = l.reverse ++ out := by
  induction l generalizing out with
  | nil => rfl
  | cons e rest ih =>
    simp only [List.foldl_cons, cleanStep_normal rooted out e (h e (by simp))]
    rw [ih _ (fun x hx => h x (by simp [hx]))]
    simp

/-- Appending normal elements to a clean path, other than the root and `.`, gives a clean path. -/
theorem cleanChars_append (p q : List Char) (hp : cleanChars p = p) (hroot : p ≠ ['/'])
    (hdot : p ≠ ['.']) (hq : ∀ e ∈ splitSep q, NormalElem e) :
    cleanChars (p ++ '/' :: q) = p ++ '/' :: q := by
  have hpne : p ≠ [] := by
    intro h; rw [h] at hp; exact absurd hp (by decide)
  have hhead : (p ++ '/' :: q).head? = p.head? := by
    cases p with
    | nil => exact absurd rfl hpne
    | cons c cs => rfl
  have hqne := splitSep_ne_nil q
  unfold cleanChars at hp ⊢
  simp only [hhead, splitSep_append_sep, List.foldl_append,
    foldl_cleanStep_normal _ _ _ hq, List.reverse_append, List.reverse_reverse] at hp ⊢
  generalize hout : ((splitSep p).foldl (cleanStep (p.head? == some '/')) []).reverse = out
    at hp ⊢
  have hout_ne : out ≠ [] := by
    intro h
    rw [h] at hp
    simp only [joinSep] at hp
    split at hp
    · exact hroot hp.symm
    · simp at hp; exact hdot hp.symm
  rw [joinSep_append _ _ hout_ne hqne, joinSep_splitSep]
  split at hp
  · rename_i hr
    simp only [hr, if_true]
    conv_rhs => rw [← hp]
    simp
  · rename_i hr
    have hb : joinSep out ≠ [] := by
      intro hb; rw [hb] at hp; simp at hp; exact hdot hp.symm
    simp only [hr, hb, if_false] at hp ⊢
    simp [hp]

/-! ### Decimal digits -/

theorem digitChar_ne (d : Nat) (h : d < 10) :
    Nat.digitChar d ≠ '/' ∧ Nat.digitChar d ≠ '.' := by
  revert d
  decide

theorem toDigitsCore_chars (fuel n : Nat) (ds : List Char)
    (h : ∀ c ∈ ds, c ≠ '/' ∧ c ≠ '.') :
    ∀ c ∈ Nat.toDigitsCore 10 fuel n ds, c ≠ '/' ∧ c ≠ '.' := by
  induction fuel generalizing n ds with
  | zero => simpa [Nat.toDigitsCore] using h
  | succ f ih =>
    have hd := digitChar_ne (n % 10) (Nat.mod_lt _ (by decide))
    have hcons : ∀ c ∈ Nat.digitChar (n % 10) :: ds, c ≠ '/' ∧ c ≠ '.' := by
      intro c hc
      rcases List.mem_cons.mp hc with rfl | hc
      · exact hd
      · exact h c hc
    unfold Nat.toDigitsCore
    simp only
    split
    · exact hcons
    · exact ih _ _ hcons

theorem toDigitsCore_ne_nil (fuel n : Nat) (ds : List Char) (h : ds ≠ []) :
    Nat.toDigitsCore 10 fuel n ds ≠ [] := by
  induction fuel generalizing n ds with
  | zero => simpa [Nat.toDigitsCore] using h
  | succ f ih =>
    unfold Nat.toDigitsCore
    simp only
    split
    · simp
    · exact ih _ _ (by simp)

theorem toDigits_ne_nil (n : Nat) : Nat.toDigits 10 n ≠ [] := by
  unfold Nat.toDigits Nat.toDigitsCore
  simp only
  split
  · simp
  · exact toDigitsCore_ne_nil _ _ _ (by simp)

theorem toDigits_chars (n : Nat) : ∀ c ∈ Nat.toDigits 10 n, c ≠ '/' ∧ c ≠ '.' :=
  toDigitsCore_chars _ _ _ (by simp)

/-- The decimal representation of an integer is a normal path element. -/
theorem Itoa_normal (n : Int) : NormalElem (Itoa n).data := by
  have key : ∀ l : List Char, l ≠ [] → (∀ c ∈ l, c ≠ '/' ∧ c ≠ '.') → NormalElem l := by
    intro l hne hl
    refine ⟨hne, ?_, ?_, fun h => (hl _ h).1 rfl⟩
    · intro h; rw [h] at hl; exact (hl '.' (by simp)).2 rfl
    · intro h; rw [h] at hl; exact (hl '.' (by simp)).2 rfl
  cases n with
  | ofNat m => exact key _ (toDigits_ne_nil m) (toDigits_chars m)
  | negSucc m =>
    refine key _ (by simp [Itoa]) ?_
    intro c hc
    simp only [Itoa, List.mem_cons] at hc
    rcases hc with rfl | hc
    · decide
    · exact toDigits_chars _ c hc

end Evergreen

namespace Evergreen

theorem splitSep_elems_no_sep (p : List Char) : ∀ e ∈ splitSep p, '/' ∉ e := by
  induction p with
  | nil => simp [splitSep]
  | cons c cs ih =>
    have hne := splitSep_ne_nil cs
    by_cases hc : c = '/'
    · simp only [splitSep, hc, if_true]
      intro e he
      rcases List.mem_cons.mp he with rfl | he
      · simp
      · exact ih e he
    · simp only [splitSep, hc, if_false]
      cases hs : splitSep cs with
      | nil => exact absurd hs hne
      | cons h t =>
        rw [hs] at ih
        intro e he
        rcases List.mem_cons.mp he with rfl | he
        · have := ih h (by simp)
          simp only [List.mem_cons, not_or]
          exact ⟨fun h' => hc h'.symm, this⟩
        · exact ih e (by simp [he])

theorem splitSep_joinSep (l : List (List Char)) (hne : l ≠ []) (h : ∀ e ∈ l, '/' ∉ e) :
    splitSep (joinSep l) = l := by
  induction l with
  | nil => exact absurd rfl hne
  | cons e rest ih =>
    cases rest with
    | nil => simpa [joinSep] using splitSep_no_sep e (h e (by simp))
    | cons f more =>
      have h1 := ih (by simp) (fun x hx => h x (by simp [hx]))
      simp only [joinSep] at h1 ⊢
      rw [splitSep_append_sep, splitSep_no_sep e (h e (by simp)), h1]
      simp

theorem cleanStep_length_le (rooted : Bool) (out : List (List Char)) (e : List Char) :
    (cleanStep rooted out e).length ≤ out.length + 1 := by
  unfold cleanStep
  split
  · omega
  · split
    · split
      · split <;> simp
      · split <;> simp; omega
    · simp

theorem foldl_cleanStep_length_le (rooted : Bool) (l : List (List Char))
    (out : List (List Char)) :
    (l.foldl (cleanStep rooted) out).length ≤ out.length + l.length := by
  induction l generalizing out with
  | nil => simp
  | cons e rest ih =>
    have h1 := ih (cleanStep rooted out e)
    have h2 := cleanStep_length_le rooted out e
    simp only [List.foldl_cons, List.length_cons]
    omega

theorem cleanStep_mem (rooted : Bool) (out : List (List Char)) (e : List Char) :
    ∀ x ∈ cleanStep rooted out e, x ∈ out ∨ x = e := by
  intro x hx
  unfold cleanStep at hx
  split at hx
  · exact Or.inl hx
  · split at hx
    · split at hx
      · split at hx
        · simp at hx
        · simp at hx; exact Or.inr hx
      · split at hx
        · rcases List.mem_cons.mp hx with h | h
          · exact Or.inr h
          · exact Or.inl h
        · exact Or.inl (by simp [hx])
    · rcases List.mem_cons.mp hx with h | h
      · exact Or.inr h
      · exact Or.inl h

theorem foldl_cleanStep_mem (rooted : Bool) (l : List (List Char)) (out : List (List Char)) :
    ∀ x ∈ l.foldl (cleanStep rooted) out, x ∈ out ∨ x ∈ l := by
  induction l generalizing out with
  | nil => intro x hx; exact Or.inl hx
  | cons e rest ih =>
    intro x hx
    rcases ih _ x hx with h | h
    · rcases cleanStep_mem rooted out e x h with h | h
      · exact Or.inl h
      · exact Or.inr (by simp [h])
    · exact Or.inr (by simp [h])

/-- After a normal element, the loop of `Clean` keeps every later element only when all of them
are normal. -/
theorem foldl_cleanStep_length_eq (rooted : Bool) (l : List (List Char))
    (out : List (List Char)) (hout : ∀ e ∈ out, NormalElem e) (hne : out ≠ [])
    (hl : ∀ e ∈ l, '/' ∉ e)
    (hlen : (l.foldl (cleanStep rooted) out).length = out.length + l.length) :
    ∀ e ∈ l, NormalElem e := by
  induction l generalizing out with
  | nil => simp
  | cons e rest ih =>
    have hbound := foldl_cleanStep_length_le rooted rest (cleanStep rooted out e)
    simp only [List.foldl_cons, List.length_cons] at hlen
    by_cases he : NormalElem e
    · rw [cleanStep_normal rooted out e he] at hlen
      have := ih (e :: out)
        (by intro x hx; rcases List.mem_cons.mp hx with rfl | hx
            · exact he
            · exact hout x hx)
        (by simp) (fun x hx => hl x (by simp [hx])) (by simp only [List.length_cons]; omega)
      intro x hx
      rcases List.mem_cons.mp hx with rfl | hx
      · exact he
      · exact this x hx
    · exfalso
      have hstep : (cleanStep rooted out e).length ≤ out.length := by
        cases out with
        | nil => exact absurd rfl hne
        | cons top more =>
          have htop := (hout top (by simp)).2.2.1
          unfold cleanStep
          split
          · exact le_refl _
          · split
            · simp [htop]
            · rename_i h1 h2
              exact absurd ⟨fun h => h1 (Or.inl h), fun h => h1 (Or.inr h), h2,
                hl e (by simp)⟩ he
      omega

/-- A relative path that starts with a normal element is left as it is by `Clean` only when all
of its elements are normal. -/
theorem cleanChars_fixed_normal (e₀ q : List Char) (h₀ : NormalElem e₀)
    (h : cleanChars (e₀ ++ '/' :: q) = e₀ ++ '/' :: q) : ∀ e ∈ splitSep q, NormalElem e := by
  have hne := h₀.1
  have hsep := h₀.2.2.2
  have hhead : ((e₀ ++ '/' :: q).head? == some '/') = false := by
    cases e₀ with
    | nil => exact absurd rfl hne
    | cons c cs =>
      have : c ≠ '/' := fun hc => hsep (by simp [hc])
      simp [this]
  have hsplit : splitSep (e₀ ++ '/' :: q) = e₀ :: splitSep q := by
    rw [splitSep_append_sep, splitSep_no_sep e₀ hsep]; rfl
  unfold cleanChars at h
  simp only [hhead, hsplit, List.foldl_cons] at h
  have hstep : cleanStep false [] e₀ = [e₀] := cleanStep_normal false [] e₀ h₀
  rw [hstep] at h
  generalize hout : (splitSep q).foldl (cleanStep false) [e₀] = out at h
  have hmem : ∀ x ∈ out, '/' ∉ x := by
    intro x hx
    rw [← hout] at hx
    rcases foldl_cleanStep_mem false _ _ x hx with hx | hx
    · simp only [List.mem_singleton] at hx; rw [hx]; exact hsep
    · exact splitSep_elems_no_sep q x hx
  have hbody : joinSep out.reverse = e₀ ++ '/' :: q := by
    by_cases hb : joinSep out.reverse = []
    · simp only [hb, if_true] at h
      have : '/' ∈ (if false = true then ['/'] else ['.'] : List Char) := by rw [h]; simp
      simp at this
    · simpa [hb] using h
  have hout_ne : out.reverse ≠ [] := by
    intro hnil
    rw [hnil] at hbody
    simp [joinSep] at hbody
  have hrev : out.reverse = e₀ :: splitSep q := by
    rw [← hsplit, ← hbody, splitSep_joinSep _ hout_ne (fun x hx => hmem x (by simpa using hx))]
  have hlen : out.length = 1 + (splitSep q).length := by
    have := congrArg List.length hrev
    simp only [List.length_reverse, List.length_cons] at this
    omega
  exact foldl_cleanStep_length_eq false (splitSep q) [e₀]
    (by intro x hx; simp only [List.mem_singleton] at hx; rw [hx]; exact h₀) (by simp)
    (splitSep_elems_no_sep q) (by rw [hout]; simpa using hlen)

end Evergreen

namespace Evergreen

namespace agent

theorem logFileNames_normal (file : String) (h : file ∈ logFileNames) : NormalElem file.data := by
  simp only [logFileNames, List.mem_cons, List.mem_singleton, List.not_mem_nil, or_false] at h
  rcases h with rfl | rfl | rfl <;> decide

theorem storageKey_data (taskID : String) (execution : Int) (file : String) :
    (storageKey taskID execution file).data =
      cleanChars ("logs".data ++ '/' :: (taskID.data ++ '/' ::
        ((Itoa execution).data ++ '/' :: file.data))) := by
  have h : ("logs" : String) ≠ "" := by decide
  simp only [storageKey, filepathJoin, h, if_false, filepathClean, stringsJoin,
    String.data_append]
  simp

theorem splitSep_key_tail (t n f : List Char) (hn : NormalElem n) (hf : NormalElem f) :
    splitSep (t ++ '/' :: (n ++ '/' :: f)) = splitSep t ++ [n, f] := by
  rw [splitSep_append_sep, splitSep_append_sep, splitSep_no_sep n hn.2.2.2,
    splitSep_no_sep f hf.2.2.2]
  rfl

/-- The key is the plain concatenation exactly for the task ids whose elements are all normal. -/
theorem storageKey_eq_iff (taskID : String) (execution : Int) (file : String)
    (hfile : file ∈ logFileNames) :
    storageKey taskID execution file = "logs/" ++ taskID ++ "/" ++ Itoa execution ++ "/" ++ file ↔
      NormalPath taskID := by
  have hn := Itoa_normal execution
  have hf := logFileNames_normal file hfile
  have hlogs : NormalElem "logs".data := by decide
  have hrhs : ("logs/" ++ taskID ++ "/" ++ Itoa execution ++ "/" ++ file).data =
      "logs".data ++ '/' :: (taskID.data ++ '/' :: ((Itoa execution).data ++ '/' :: file.data)) := by
    simp only [String.data_append]
    simp
  rw [String.ext_iff, storageKey_data, hrhs]
  constructor
  · intro h
    have hall := cleanChars_fixed_normal _ _ hlogs h
    rw [splitSep_key_tail _ _ _ hn hf] at hall
    intro e he
    exact hall e (by simp [he])
  · intro h
    refine cleanChars_append _ _ (by decide) (by decide) (by decide) ?_
    rw [splitSep_key_tail _ _ _ hn hf]
    intro e he
    rcases List.mem_append.mp he with he | he
    · exact h e he
    · simp only [List.mem_cons, List.mem_singleton, List.not_mem_nil, or_false] at he
      rcases he with rfl | rfl
      · exact hn
      · exact hf

/-- C3, as stated, fails: for the empty task id and for the task id `x/../y` the key passed to
`Upload` is not the concatenation `logs/<taskID>/<executionNumber>/agent.log`. -/
theorem uploadSingleFile_key_cleaned :
    (uploadSingleFile sampleAgent allPresent (failOn "").recording ((), [])
        agentLogFileName "" 0).2.2 =
      [("logs/0/agent.log", "/data/agent/evergreen-logs/agent.log")] ∧
    "logs/0/agent.log" ≠ "logs/" ++ "" ++ "/" ++ Itoa 0 ++ "/" ++ agentLogFileName ∧
    (uploadSingleFile sampleAgent allPresent (failOn "").recording ((), [])
        agentLogFileName "x/../y" 0).2.2 =
      [("logs/y/0/agent.log", "/data/agent/evergreen-logs/agent.log")] ∧
    "logs/y/0/agent.log" ≠ "logs/" ++ "x/../y" ++ "/" ++ Itoa 0 ++ "/" ++ agentLogFileName := by
  decide

/-- C3, amended: for every execution number and each of the three file names, a file that is not
missing is uploaded with one `Upload` call whose key is `filepath.Join` of `logs`, the task id,
the execution number in decimal and the file name; that key is the string
`logs/<taskID>/<executionNumber>/<f>` exactly when every `/`-separated element of the task id
is non-empty and neither `.` nor `..`. -/
theorem uploadSingleFile_key {β : Type} (a : Agent) (fs : FileSystem) (bucket : Bucket β) (b : β)
    (file taskID : String) (execution : Int) (hfile : file ∈ logFileNames)
    (hpresent : fileMissing a fs file = false) :
    (uploadSingleFile a fs bucket.recording (b, []) file taskID execution).2.2 =
      [(filepathJoin ["logs", taskID, Itoa execution, file], localLogPath a file)] ∧
    (filepathJoin ["logs", taskID, Itoa execution, file] =
        "logs/" ++ taskID ++ "/" ++ Itoa execution ++ "/" ++ file ↔ NormalPath taskID) := by
  refine ⟨?_, storageKey_eq_iff taskID execution file hfile⟩
  rw [uploadSingleFile_present _ _ _ _ _ _ _ hpresent]
  simp [Bucket.recording, storageKey]

/-- The key of `system.log` for execution 3 of a task with a usual id. -/
theorem uploadSingleFile_key_witness :
    (uploadSingleFile sampleAgent allPresent (failOn "").recording ((), [])
        systemLogFileName "evergreen_ubuntu1604_test_agent_5a1b" 3).2.2 =
      [("logs/evergreen_ubuntu1604_test_agent_5a1b/3/system.log",
        "/data/agent/evergreen-logs/system.log")] := by
  have h := uploadSingleFile_key sampleAgent allPresent (failOn "") () systemLogFileName
    "evergreen_ubuntu1604_test_agent_5a1b" 3 (by decide) (by decide)
  rw [h.1, h.2.mpr (by decide)]
  decide

end agent

end Evergreen

namespace Evergreen

namespace agent

end agent

/-- A path that stays as it is when normal elements are appended to it is itself clean, and is
neither the root nor `.`. -/
theorem cleanChars_append_fixed (p q : List Char) (hpne : p ≠ [])
    (hq : ∀ e ∈ splitSep q, NormalElem e)
    (h : cleanChars (p ++ '/' :: q) = p ++ '/' :: q) :
    cleanChars p = p ∧ p ≠ ['/'] ∧ p ≠ ['.'] := by
  have hhead : (p ++ '/' :: q).head? = p.head? := by
    cases p with
    | nil => exact absurd rfl hpne
    | cons c cs => rfl
  have hqne := splitSep_ne_nil q
  have hplen : 0 < p.length := List.length_pos.mpr hpne
  unfold cleanChars at h ⊢
  simp only [hhead, splitSep_append_sep, List.foldl_append,
    foldl_cleanStep_normal _ _ _ hq, List.reverse_append, List.reverse_reverse] at h ⊢
  generalize hout : ((splitSep p).foldl (cleanStep (p.head? == some '/')) []).reverse = out
    at h ⊢
  have hout_ne : out ≠ [] := by
    intro hnil
    rw [hnil, List.nil_append, joinSep_splitSep] at h
    split at h
    · have := congrArg List.length h
      simp only [List.length_cons, List.length_append] at this
      omega
    · split at h
      · have := congrArg List.length h
        simp only [List.length_cons, List.length_append, List.length_nil] at this
        omega
      · have := congrArg List.length h
        simp only [List.length_cons, List.length_append] at this
        omega
  rw [joinSep_append _ _ hout_ne hqne, joinSep_splitSep] at h
  refine ⟨?_, ?_, ?_⟩
  · split at h
    · rename_i hr
      simp only [hr, if_true]
      have h' : ('/' :: joinSep out) ++ '/' :: q = p ++ '/' :: q := by simpa using h
      exact List.append_cancel_right h'
    · rename_i hr
      have hb : joinSep out ++ '/' :: q ≠ [] := by simp
      simp only [hb, if_false] at h
      have hp : joinSep out = p := List.append_cancel_right h
      have hb' : joinSep out ≠ [] := by rw [hp]; exact hpne
      simp only [hr, hb', if_false]
      exact hp
  · intro hp
    rw [hp] at hout
    exact hout_ne (hout.symm.trans (by decide))
  · intro hp
    rw [hp] at hout
    exact hout_ne (hout.symm.trans (by decide))

namespace agent

/-- The local path of a log file is the plain concatenation exactly for the working directories
that are clean and neither the root nor `.`. -/
theorem logPath_eq_iff (wd file : String) (hfile : file ∈ logFileNames) :
    filepathJoin [wd, "evergreen-logs", file] = wd ++ "/evergreen-logs/" ++ file ↔
      (filepathClean wd = wd ∧ wd ≠ "/" ∧ wd ≠ ".") := by
  have hf := logFileNames_normal file hfile
  have hdir : NormalElem "evergreen-logs".data := by decide
  by_cases hne : wd = ""
  · subst hne
    simp only [logFileNames, List.mem_cons, List.mem_singleton, List.not_mem_nil, or_false]
      at hfile
    rcases hfile with rfl | rfl | rfl <;> decide
  · have hne' : wd.data ≠ [] := fun h => hne (String.ext_iff.mpr h)
    have hq : ∀ e ∈ splitSep ("evergreen-logs".data ++ '/' :: file.data), NormalElem e := by
      rw [splitSep_append_sep, splitSep_no_sep _ hdir.2.2.2, splitSep_no_sep _ hf.2.2.2]
      intro e he
      simp only [List.singleton_append, List.mem_cons, List.mem_singleton, List.not_mem_nil,
        or_false] at he
      rcases he with rfl | rfl
      · exact hdir
      · exact hf
    have e1 : (filepathJoin [wd, "evergreen-logs", file]).data =
        cleanChars (wd.data ++ '/' :: ("evergreen-logs".data ++ '/' :: file.data)) := by
      simp only [filepathJoin, hne, if_false, filepathClean, stringsJoin, String.data_append]
      simp
    have e2 : (wd ++ "/evergreen-logs/" ++ file).data =
        wd.data ++ '/' :: ("evergreen-logs".data ++ '/' :: file.data) := by
      simp only [String.data_append]
      simp
    have e3 : filepathClean wd = wd ↔ cleanChars wd.data = wd.data := by
      rw [String.ext_iff]; rfl
    have e4 : wd ≠ "/" ↔ wd.data ≠ ['/'] := by
      rw [Ne, String.ext_iff]
    have e5 : wd ≠ "." ↔ wd.data ≠ ['.'] := by
      rw [Ne, String.ext_iff]
    rw [String.ext_iff, e1, e2, e3, e4, e5]
    constructor
    · exact cleanChars_append_fixed _ _ hne' hq
    · rintro ⟨h1, h2, h3⟩
      exact cleanChars_append _ _ h1 h2 h3 hq

/-- C5, as stated, fails: for the empty working directory and for a working directory with a
trailing separator the local path of a resolved entry is not the string
`<workingDirectory>/evergreen-logs/<file name>`. -/
theorem convertLoggerConfig_path_cleaned :
    (convertLoggerConfig ⟨⟨"", "https://logkeeper.example.com"⟩⟩ sampleTaskContext
        ⟨[⟨"file", "srv", "tok"⟩], [], []⟩).Agent.map (fun o => o.Filepath) =
      ["evergreen-logs/agent.log"] ∧
    "evergreen-logs/agent.log" ≠ "" ++ "/evergreen-logs/" ++ "agent.log" ∧
    (convertLoggerConfig ⟨⟨"/data/agent/", "https://logkeeper.example.com"⟩⟩ sampleTaskContext
        ⟨[], [], [⟨"file", "srv", "tok"⟩]⟩).Task.map (fun o => o.Filepath) =
      ["/data/agent/evergreen-logs/task.log"] ∧
    "/data/agent/evergreen-logs/task.log" ≠ "/data/agent/" ++ "/evergreen-logs/" ++ "task.log" := by
  decide

/-- C5, amended: `convertLoggerConfig` returns for each channel one resolved entry per template
entry, in the same order; each carries the sender kind of its template entry, the Logkeeper base
URL with the task id and the execution number, the two expanded secret fields, and as local path
`filepath.Join` of the working directory, `evergreen-logs` and the file name of its channel
(agent.log, system.log, task.log); that path is the string
`<workingDirectory>/evergreen-logs/<file name>` exactly when the working directory is a clean
path other than the root and `.`. -/
theorem convertLoggerConfig_entries (a : Agent) (tc : taskContext) (c : model.LoggerConfig) :
    (convertLoggerConfig a tc c).Agent = c.Agent.map (fun entry =>
      { LogkeeperURL := a.opts.LogkeeperURL
        LogkeeperBuilder := tc.taskModel.Id
        LogkeeperBuildNum := tc.taskModel.Execution
        Sender := entry.Type_
        SplunkServerURL := (tc.expansions.ExpandString entry.SplunkServer).1
        SplunkToken := (tc.expansions.ExpandString entry.SplunkToken).1
        Filepath := filepathJoin [a.opts.WorkingDirectory, "evergreen-logs", "agent.log"] }) ∧
    (convertLoggerConfig a tc c).System = c.System.map (fun entry =>
      { LogkeeperURL := a.opts.LogkeeperURL
        LogkeeperBuilder := tc.taskModel.Id
        LogkeeperBuildNum := tc.taskModel.Execution
        Sender := entry.Type_
        SplunkServerURL := (tc.expansions.ExpandString entry.SplunkServer).1
        SplunkToken := (tc.expansions.ExpandString entry.SplunkToken).1
        Filepath := filepathJoin [a.opts.WorkingDirectory, "evergreen-logs", "system.log"] }) ∧
    (convertLoggerConfig a tc c).Task = c.Task.map (fun entry =>
      { LogkeeperURL := a.opts.LogkeeperURL
        LogkeeperBuilder := tc.taskModel.Id
        LogkeeperBuildNum := tc.taskModel.Execution
        Sender := entry.Type_
        SplunkServerURL := (tc.expansions.ExpandString entry.SplunkServer).1
        SplunkToken := (tc.expansions.ExpandString entry.SplunkToken).1
        Filepath := filepathJoin [a.opts.WorkingDirectory, "evergreen-logs", "task.log"] }) ∧
    (∀ file ∈ ["agent.log", "system.log", "task.log"],
      (filepathJoin [a.opts.WorkingDirectory, "evergreen-logs", file] =
          a.opts.WorkingDirectory ++ "/evergreen-logs/" ++ file ↔
        (filepathClean a.opts.WorkingDirectory = a.opts.WorkingDirectory ∧
          a.opts.WorkingDirectory ≠ "/" ∧ a.opts.WorkingDirectory ≠ "."))) := by
  rw [convertLoggerConfig_eq_map]
  refine ⟨rfl, rfl, rfl, ?_⟩
  intro file hfile
  exact logPath_eq_iff a.opts.WorkingDirectory file hfile

/-- In the working directory `/data/agent` a task channel entry resolves to the path
`/data/agent/evergreen-logs/task.log`, with its sender kind, coordinates and secrets. -/
theorem convertLoggerConfig_entries_witness :
    (convertLoggerConfig sampleAgent sampleTaskContext
        ⟨[], [], [⟨"file", "srv", "tok"⟩]⟩).Task =
      [{ LogkeeperURL := "https://logkeeper.example.com"
         LogkeeperBuilder := "t1"
         LogkeeperBuildNum := 0
         Sender := "file"
         SplunkServerURL := "srv"
         SplunkToken := "tok"
         Filepath := "/data/agent" ++ "/evergreen-logs/" ++ "task.log" }] := by
  have h := convertLoggerConfig_entries sampleAgent sampleTaskContext
    ⟨[], [], [⟨"file", "srv", "tok"⟩]⟩
  have hpath := (h.2.2.2 "task.log" (by decide)).mpr ⟨by decide, by decide, by decide⟩
  rw [h.2.2.1]
  simp only [List.map]
  rw [hpath]
  rfl

/-! ### GetSender -/

/-- C8, as stated, fails: with the constants of package `evergreen`, three different non-empty
selectors give one console sender and no file sender, so a selector outside any two reserved
values is not treated as a file-path prefix. -/
theorem GetSender_three_console_selectors :
    (GetSender sampleEnv IdSource.init "LOCAL").1 = Except.ok [Sender.native] ∧
    (GetSender sampleEnv IdSource.init "--").1 = Except.ok [Sender.native] ∧
    (GetSender sampleEnv IdSource.init "STDOUT").1 = Except.ok [Sender.native] ∧
    sampleEnv.LocalLoggingOverride = "LOCAL" ∧
    sampleEnv.StandardOutputLoggingOverride = "STDOUT" ∧
    (GetSender sampleEnv IdSource.init "--").1 ≠
      Except.ok [Sender.file ("--" ++ "-" ++ Itoa 4242 ++ "-" ++ Itoa 0 ++ ".log")] := by
  refine ⟨rfl, rfl, rfl, rfl, rfl, ?_⟩
  intro h
  have h' : (Except.ok [Sender.native] : Except String (List Sender)) =
      Except.ok [Sender.file ("--" ++ "-" ++ Itoa 4242 ++ "-" ++ Itoa 0 ++ ".log")] := h
  simp at h'

/-- C8, amended: when `GetSender` returns a sender set, its local senders are: none for the
empty selector; exactly one native console sender and no file sender for a selector equal to one
of the three reserved values `LocalLoggingOverride`, `--` and `StandardOutputLoggingOverride`;
and for every other selector exactly one file sender named `<prefix>-<processID>-<getInc()>.log`
and no console sender. `GetSender` returns an error only when a sender constructor failed. -/
theorem GetSender_local_senders (env : Env) (ids : IdSource) (pfx : String) :
    match (GetSender env ids pfx).1 with
    | Except.ok senders =>
      localSenders senders =
        if pfx = "" then []
        else if pfx = env.LocalLoggingOverride ∨ pfx = "--"
            ∨ pfx = env.StandardOutputLoggingOverride then [Sender.native]
        else [Sender.file (pfx ++ "-" ++ Itoa env.pid ++ "-" ++ Itoa (getInc ids).1 ++ ".log")]
    | Except.error _ =>
      env.newSplunkLogger ≠ none ∨ env.newNativeLogger ≠ none ∨
        ∃ name, env.newFileLogger name ≠ none := by
  unfold GetSender
  by_cases hm : env.markerAgentPID = "" <;> by_cases hs : env.splunkPopulated = true <;>
    cases hsp : env.newSplunkLogger <;>
    by_cases h1 : pfx = "" <;>
    by_cases h2 : (pfx = env.LocalLoggingOverride ∨ pfx = "--"
      ∨ pfx = env.StandardOutputLoggingOverride) <;>
    cases hn : env.newNativeLogger <;>
    cases hf : env.newFileLogger
      (pfx ++ "-" ++ Itoa env.pid ++ "-" ++ Itoa (getInc ids).1 ++ ".log") <;>
    simp [hm, hs, hsp, h1, h2, hn, hf, localSenders] <;>
    exact ⟨_, by rw [hf]; simp⟩

end agent

end Evergreen

namespace Evergreen

namespace agent

/-! ### The id source -/

theorem wrapInt_succ (x : Int) : wrapInt (wrapInt x + 1) = wrapInt (x + 1) := by
  unfold wrapInt
  omega

theorem wrapInt_of_lt (n : Nat) (h : n < 2 ^ 63) : wrapInt n = n := by
  unfold wrapInt
  omega

theorem IdSourceAt_init : IdSourceAt 0 IdSource.init := by
  simp [IdSourceAt, IdSource.init, wrapInt]

theorem IdSourceAt_produce (c : Nat) (s : IdSource) (h : IdSourceAt c s) :
    IdSourceAt c s.produce := by
  obtain ⟨hbuf, hid, hcap⟩ := h
  unfold IdSource.produce
  split
  · rename_i hlt
    refine ⟨?_, ?_, ?_⟩
    · simp only [List.length_append, List.length_singleton, List.range'_concat, List.map_append,
        List.map_singleton, ← hbuf]
      simp [hid]
    · simp only [List.length_append, List.length_singleton, hid, wrapInt_succ]
      congr 1
    · simp only [List.length_append, List.length_singleton]
      omega
  · exact ⟨hbuf, hid, hcap⟩

theorem IdSourceAt_getInc (c : Nat) (s : IdSource) (h : IdSourceAt c s) :
    (getInc s).1 = wrapInt c ∧ IdSourceAt (c + 1) (getInc s).2 := by
  obtain ⟨hbuf, hid, hcap⟩ := h
  unfold getInc
  cases hb : s.buf with
  | nil =>
    simp only [hb, List.length_nil, Nat.add_zero] at hid
    refine ⟨hid, ?_, ?_, ?_⟩
    · simp
    · simp only [List.length_nil, Nat.add_zero, hid, wrapInt_succ]
      congr 1
    · simp
  | cons v rest =>
    rw [hb] at hbuf hcap
    simp only [hb, List.length_cons] at hid
    simp only [List.length_cons, List.range'_succ, List.map_cons, List.cons.injEq] at hbuf
    refine ⟨hbuf.1, hbuf.2, ?_, ?_⟩
    · simp only [hid]
      congr 2
      omega
    · simp only [List.length_cons] at hcap
      show rest.length ≤ idSourceCap
      omega

theorem runSchedule_spec (c : Nat) (s : IdSource) (h : IdSourceAt c s) (sched : List Event) :
    (runSchedule s sched).1 = (List.range' c (callCount sched)).map (fun (k : Nat) => wrapInt (k : Int)) ∧
      IdSourceAt (c + callCount sched) (runSchedule s sched).2 := by
  induction sched generalizing c s with
  | nil => simpa [runSchedule, callCount] using h
  | cons ev rest ih =>
    cases ev with
    | produce =>
      have := ih c s.produce (IdSourceAt_produce c s h)
      simpa [runSchedule, callCount] using this
    | call =>
      obtain ⟨hv, hs⟩ := IdSourceAt_getInc c s h
      have := ih (c + 1) (getInc s).2 hs
      simp only [callCount, List.count_cons_self, runSchedule, List.range'_succ, List.map_cons,
        hv] at this ⊢
      refine ⟨by rw [this.1], ?_⟩
      have h2 := this.2
      rwa [Nat.add_assoc, Nat.add_comm 1] at h2

/-- C7: along every schedule of producer iterations and calls of `getInc` from the state set up
by `init`, as long as the values produced so far stay in the non-wraparound range, the calls
return 0, 1, 2, ... in call order, so each result is strictly greater than every earlier one, and
the channel holds the consecutive integers that follow, in increasing order, never more than its
capacity. -/
theorem getInc_strictly_increasing (sched : List Event)
    (h : callCount sched + (runSchedule IdSource.init sched).2.buf.length ≤ 2 ^ 63) :
    (runSchedule IdSource.init sched).1 =
      (List.range (callCount sched)).map (fun (k : Nat) => (k : Int)) ∧
    List.Pairwise (fun x y => x < y) (runSchedule IdSource.init sched).1 ∧
    (runSchedule IdSource.init sched).2.buf =
      (List.range' (callCount sched) (runSchedule IdSource.init sched).2.buf.length).map
        (fun (k : Nat) => (k : Int)) ∧
    (runSchedule IdSource.init sched).2.buf.length ≤ 100 := by
  obtain ⟨hout, hbuf, -, hcap⟩ := runSchedule_spec 0 IdSource.init IdSourceAt_init sched
  simp only [Nat.zero_add] at hbuf
  have hvals : (runSchedule IdSource.init sched).1 =
      (List.range (callCount sched)).map (fun (k : Nat) => (k : Int)) := by
    rw [hout, List.range_eq_range']
    apply List.map_congr_left
    intro k hk
    have := (List.mem_range'_1.mp hk).2
    exact wrapInt_of_lt k (by omega)
  refine ⟨hvals, ?_, ?_, hcap⟩
  · rw [hvals, List.pairwise_map]
    exact (List.pairwise_lt_range _).imp (fun hab => by exact_mod_cast hab)
  · generalize (runSchedule IdSource.init sched).2.buf = buf at hbuf h
    generalize hn : buf.length = n at hbuf h
    rw [hbuf]
    apply List.map_congr_left
    intro k hk
    have := (List.mem_range'_1.mp hk).2
    exact wrapInt_of_lt k (by omega)

/-- Three calls interleaved with producer iterations return 0, 1, 2. -/
theorem getInc_strictly_increasing_witness :
    (runSchedule IdSource.init
      [Event.call, Event.produce, Event.produce, Event.call, Event.call, Event.produce]).1 =
      [0, 1, 2] :=
  (getInc_strictly_increasing
    [Event.call, Event.produce, Event.produce, Event.call, Event.call, Event.produce]
    (by decide)).1

end agent

end Evergreen
